import Mathlib

/-!
Verification of the transaction-graph construction and path-finding engine
of solconnect (src/main.rs): a shallow embedding of
`build_transaction_graph` and `find_paths`, together with theorems about the
graph invariants (symmetry, edge generation, order independence, failure
semantics) and the traversal (visited/enqueue discipline, single-path
guarantee, depth bound, self match, absent endpoints, termination).
-/

/-- JSON values, modelling serde_json::Value as far as the graph builder
inspects them. Numeric payloads are never read by the builder and are
carried as integers. -/
inductive Json where
  | null : Json
  | bool : Bool → Json
  | num : Int → Json
  | str : String → Json
  | arr : List Json → Json
  | obj : List (String × Json) → Json

/-- Field access on a JSON object (Value::get): the value bound to the key,
none on non-objects or missing keys. -/
def Json.get : Json → String → Option Json
  | Json.obj fields, key => (fields.find? (fun p => p.1 == key)).map (fun p => p.2)
  | _, _ => none

/-- Value::as_array. -/
def Json.asArr : Json → Option (List Json)
  | Json.arr xs => some xs
  | _ => none

/-- Value::as_str. -/
def Json.asStr : Json → Option String
  | Json.str s => some s
  | _ => none

/-- Extensional model of HashMap String (HashSet String): the graph built by
build_transaction_graph, viewed as the partial map sending each key to its
neighbor set. -/
def Graph : Type := String → Option (Finset String)

/-- HashMap::new. -/
def Graph.empty : Graph := fun _ => none

/-- graph.entry(x).or_insert_with(HashSet::new).insert(y): bind x to the
default empty set if absent, then add y to its neighbor set. -/
def addDirected (g : Graph) (x y : String) : Graph :=
  fun a => if a = x then some (insert y ((g x).getD ∅)) else g a

/-- Body of the inner loop of build_transaction_graph: inserts both
directions sender→receiver and receiver→sender. -/
def addEdgePair (g : Graph) (sender receiver : String) : Graph :=
  addDirected (addDirected g sender receiver) receiver sender

/-- Participant extraction of build_transaction_graph: follow
transaction → message → accountKeys, require an array, and keep the string
entries (accountKeys.iter().filter_map(as_str)). none when any level of the
structure is missing. -/
def accountsOf (t : Json) : Option (List String) :=
  (t.get "transaction").bind (fun ti =>
    (ti.get "message").bind (fun msg =>
      ((msg.get "accountKeys").bind Json.asArr).map (fun ks =>
        ks.filterMap Json.asStr)))

/-- Per-record step of build_transaction_graph: the first account (if any)
is the sender and every later account a receiver; each (sender, receiver)
pair contributes both directed entries. Records without the expected
structure, or with fewer than two accounts, leave the graph unchanged. -/
def processTransaction (g : Graph) (t : Json) : Graph :=
  match accountsOf t with
  | none => g
  | some [] => g
  | some (sender :: rest) =>
      rest.foldl (fun acc receiver => addEdgePair acc sender receiver) g

/-- build_transaction_graph: fold the per-record step over the transaction
list, starting from the empty map. -/
def build_transaction_graph (transactions : List Json) : Graph :=
  transactions.foldl processTransaction Graph.empty

/-- Adjacency of the built graph: b is in the neighbor set stored at a
(absent keys read as the empty set). -/
def Graph.adj (g : Graph) (a b : String) : Prop := b ∈ (g a).getD ∅

/-- Input to find_paths: HashMap String (HashSet String) together with one
fixed iteration order for the key-value pairs and for each neighbor set
(HashSet iteration order is unspecified in the source; any order is a
possible execution). -/
abbrev AdjList : Type := List (String × List String)

/-- HashMap::get on the adjacency input: the neighbor list of the first
matching key. -/
def AdjList.get (g : AdjList) (a : String) : Option (List String) :=
  (g.find? (fun p => p.1 == a)).map (fun p => p.2)

/-- Key set of the adjacency input. -/
def AdjList.keys (g : AdjList) : Finset String :=
  (g.map (fun p => p.1)).toFinset

/-- All addresses occurring in some neighbor list of the adjacency input. -/
def AdjList.allNbrs (g : AdjList) : Finset String :=
  ((g.map (fun p => p.2)).flatten).toFinset

/-- Inner for-loop of find_paths over one neighbor list: visited neighbors
are skipped; a fresh neighbor is pushed to the back of the queue with the
extended path and marked visited at the moment it is enqueued. -/
def expandNeighbors (path : List String) :
    List String → List (String × List String) → Finset String →
    List (String × List String) × Finset String
  | [], queue, visited => (queue, visited)
  | n :: ns, queue, visited =>
    if n ∈ visited then expandNeighbors path ns queue visited
    else expandNeighbors path ns (queue ++ [(n, path ++ [n])]) (insert n visited)

/-- Dequeue loop of find_paths with explicit fuel counting loop iterations;
none signals fuel exhaustion (proved unreachable at fuelBound). The loop
body is, in order: depth check, end check with path emission, neighbor
expansion. -/
def findPathsAux (g : AdjList) (e : String) (maxDepth : Nat) :
    Nat → List (String × List String) → Finset String → List (List String) →
    Option (List (List String))
  | _, [], _, paths => some paths
  | 0, _ :: _, _, _ => none
  | fuel + 1, (node, path) :: rest, visited, paths =>
    if path.length > maxDepth then findPathsAux g e maxDepth fuel rest visited paths
    else if node = e then findPathsAux g e maxDepth fuel rest visited (paths ++ [path])
    else
      match AdjList.get g node with
      | none => findPathsAux g e maxDepth fuel rest visited paths
      | some nbrs =>
        findPathsAux g e maxDepth fuel (expandNeighbors path nbrs rest visited).1
          (expandNeighbors path nbrs rest visited).2 paths

/-- Enough fuel for every loop iteration: one initial enqueue plus at most
one loop enqueue per distinct neighbor address. -/
def fuelBound (g : AdjList) : Nat := (AdjList.allNbrs g).card + 1

/-- find_paths: start from the queue holding (start, [start]) with an empty
visited set and no emitted paths. -/
def find_paths (g : AdjList) (start e : String) (maxDepth : Nat) :
    List (List String) :=
  (findPathsAux g e maxDepth (fuelBound g) [(start, [start])] ∅ []).getD []

/-- Instrumented inner loop: identical to expandNeighbors but also logs each
enqueued address, in order. -/
def expandNeighborsTr (path : List String) :
    List String → List (String × List String) → Finset String → List String →
    List (String × List String) × Finset String × List String
  | [], queue, visited, tr => (queue, visited, tr)
  | n :: ns, queue, visited, tr =>
    if n ∈ visited then expandNeighborsTr path ns queue visited tr
    else expandNeighborsTr path ns (queue ++ [(n, path ++ [n])])
      (insert n visited) (tr ++ [n])

/-- Instrumented dequeue loop: identical to findPathsAux but also returns
the log of enqueued addresses. -/
def findPathsAuxTr (g : AdjList) (e : String) (maxDepth : Nat) :
    Nat → List (String × List String) → Finset String → List (List String) →
    List String → Option (List (List String) × List String)
  | _, [], _, paths, tr => some (paths, tr)
  | 0, _ :: _, _, _, _ => none
  | fuel + 1, (node, path) :: rest, visited, paths, tr =>
    if path.length > maxDepth then findPathsAuxTr g e maxDepth fuel rest visited paths tr
    else if node = e then findPathsAuxTr g e maxDepth fuel rest visited (paths ++ [path]) tr
    else
      match AdjList.get g node with
      | none => findPathsAuxTr g e maxDepth fuel rest visited paths tr
      | some nbrs =>
        findPathsAuxTr g e maxDepth fuel (expandNeighborsTr path nbrs rest visited tr).1
          (expandNeighborsTr path nbrs rest visited tr).2.1 paths
          (expandNeighborsTr path nbrs rest visited tr).2.2

/-- Sequence of all addresses pushed onto the traversal queue during
find_paths, starting with the initial push of start. -/
def find_paths_trace (g : AdjList) (start e : String) (maxDepth : Nat) :
    List String :=
  ((findPathsAuxTr g e maxDepth (fuelBound g) [(start, [start])] ∅ []
    [start]).getD ([], [start])).2

/-- Edge contributed by one transaction record: x-y is an anchor-associate
pair of the record, in either direction. -/
def txEdge (t : Json) (x y : String) : Prop :=
  ∃ a rest, accountsOf t = some (a :: rest) ∧
    ((x = a ∧ y ∈ rest) ∨ (y = a ∧ x ∈ rest))

/-- Fold a list of directed insertions over a graph (used to reorder the
insertions performed by processTransaction). -/
def applyDirected (g : Graph) (l : List (String × String)) : Graph :=
  l.foldl (fun acc p => addDirected acc p.1 p.2) g

/-- Directed insertions performed by processTransaction, as a list. -/
def txSteps (t : Json) : List (String × String) :=
  match accountsOf t with
  | some (a :: rest) => rest.flatMap (fun r => [(a, r), (r, a)])
  | _ => []

/-- Well-formed transaction record with the given account keys, as returned
by the detail retriever. -/
def txRecord (keys : List String) : Json :=
  Json.obj [("transaction", Json.obj [("message",
    Json.obj [("accountKeys", Json.arr (keys.map Json.str))])])]

/-! Adjacency characterization of the graph builder. -/

theorem adj_addDirected (g : Graph) (u v x y : String) :
    Graph.adj (addDirected g u v) x y ↔ (x = u ∧ y = v) ∨ Graph.adj g x y := by
  unfold Graph.adj addDirected
  by_cases h : x = u
  · subst h
    simp
  · simp [h]

theorem adj_addEdgePair (g : Graph) (s r x y : String) :
    Graph.adj (addEdgePair g s r) x y ↔
      ((x = s ∧ y = r) ∨ (x = r ∧ y = s)) ∨ Graph.adj g x y := by
  unfold addEdgePair
  rw [adj_addDirected, adj_addDirected]
  tauto

theorem adj_foldl_addEdgePair (a : String) (rest : List String) (g : Graph)
    (x y : String) :
    Graph.adj (rest.foldl (fun acc r => addEdgePair acc a r) g) x y ↔
      (∃ r ∈ rest, (x = a ∧ y = r) ∨ (y = a ∧ x = r)) ∨ Graph.adj g x y := by
  induction rest generalizing g with
  | nil => simp
  | cons r rs ih =>
    rw [List.foldl_cons, ih, adj_addEdgePair]
    simp only [List.mem_cons]
    constructor
    · rintro (⟨r', hr', h⟩ | (h | h) | h)
      · exact Or.inl ⟨r', Or.inr hr', h⟩
      · exact Or.inl ⟨r, Or.inl rfl, Or.inl h⟩
      · exact Or.inl ⟨r, Or.inl rfl, Or.inr ⟨h.2, h.1⟩⟩
      · exact Or.inr h
    · rintro (⟨r', hr' | hr', h⟩ | h)
      · subst hr'
        rcases h with h | h
        · exact Or.inr (Or.inl (Or.inl h))
        · exact Or.inr (Or.inl (Or.inr ⟨h.2, h.1⟩))
      · exact Or.inl ⟨r', hr', h⟩
      · exact Or.inr (Or.inr h)

theorem adj_processTransaction (g : Graph) (t : Json) (x y : String) :
    Graph.adj (processTransaction g t) x y ↔ txEdge t x y ∨ Graph.adj g x y := by
  unfold processTransaction txEdge
  rcases h : accountsOf t with _ | (_ | ⟨a, rest⟩)
  · simp [h]
  · simp [h]
  · rw [adj_foldl_addEdgePair]
    simp only [h, Option.some.injEq, List.cons.injEq]
    constructor
    · rintro (⟨r, hr, ⟨h1, h2⟩ | ⟨h1, h2⟩⟩ | hadj)
      · subst h2
        exact Or.inl ⟨a, rest, ⟨rfl, rfl⟩, Or.inl ⟨h1, hr⟩⟩
      · subst h2
        exact Or.inl ⟨a, rest, ⟨rfl, rfl⟩, Or.inr ⟨h1, hr⟩⟩
      · exact Or.inr hadj
    · rintro (⟨a1, rest1, ⟨ha, hrest⟩, ⟨h1, h2⟩ | ⟨h1, h2⟩⟩ | hadj)
      · subst ha
        subst hrest
        exact Or.inl ⟨y, h2, Or.inl ⟨h1, rfl⟩⟩
      · subst ha
        subst hrest
        exact Or.inl ⟨x, h2, Or.inr ⟨h1, rfl⟩⟩
      · exact Or.inr hadj

theorem adj_empty (x y : String) : ¬ Graph.adj Graph.empty x y := by
  simp [Graph.adj, Graph.empty]

theorem adj_foldl_processTransaction (ts : List Json) (g : Graph)
    (x y : String) :
    Graph.adj (ts.foldl processTransaction g) x y ↔
      (∃ t ∈ ts, txEdge t x y) ∨ Graph.adj g x y := by
  induction ts generalizing g with
  | nil => simp
  | cons t ts ih =>
    rw [List.foldl_cons, ih, adj_processTransaction]
    simp only [List.mem_cons]
    constructor
    · rintro (⟨t', ht', h⟩ | h | h)
      · exact Or.inl ⟨t', Or.inr ht', h⟩
      · exact Or.inl ⟨t, Or.inl rfl, h⟩
      · exact Or.inr h
    · rintro (⟨t', ht' | ht', h⟩ | h)
      · subst ht'
        exact Or.inr (Or.inl h)
      · exact Or.inl ⟨t', ht', h⟩
      · exact Or.inr (Or.inr h)

theorem adj_build_iff (ts : List Json) (x y : String) :
    Graph.adj (build_transaction_graph ts) x y ↔ ∃ t ∈ ts, txEdge t x y := by
  unfold build_transaction_graph
  rw [adj_foldl_processTransaction]
  simp [adj_empty]

theorem txEdge_symm (t : Json) (x y : String) : txEdge t x y ↔ txEdge t y x := by
  unfold txEdge
  constructor <;> (rintro ⟨a, rest, h1, h2⟩; exact ⟨a, rest, h1, h2.symm⟩)

/-- C4: every graph produced by build_transaction_graph is symmetric: for
all addresses a and b, b is a neighbor of a iff a is a neighbor of b. -/
theorem build_transaction_graph_symm (ts : List Json) (a b : String) :
    Graph.adj (build_transaction_graph ts) a b ↔
      Graph.adj (build_transaction_graph ts) b a := by
  rw [adj_build_iff, adj_build_iff]
  constructor <;>
    (rintro ⟨t, ht, he⟩; exact ⟨t, ht, (txEdge_symm t _ _).mp he⟩)

/-- C5: the built graph contains edge x-y exactly when some record of the
input has a participant list whose first entry (the anchor) is one of x, y
and whose remaining entries (the associates) contain the other; in
particular a list yields only anchor-associate edges, and a list with one
or zero addresses yields none. -/
theorem build_transaction_graph_edges_iff (ts : List Json) (x y : String) :
    Graph.adj (build_transaction_graph ts) x y ↔
      ∃ t ∈ ts, ∃ a rest, accountsOf t = some (a :: rest) ∧
        ((x = a ∧ y ∈ rest) ∨ (y = a ∧ x ∈ rest)) := by
  rw [adj_build_iff]
  unfold txEdge
  rfl

/-! Order independence of the graph builder. -/

theorem addDirected_comm (g : Graph) (x y u v : String) :
    addDirected (addDirected g x y) u v = addDirected (addDirected g u v) x y := by
  by_cases hxu : x = u
  · subst hxu
    funext a
    by_cases ha : a = x
    · subst ha
      simp [addDirected, Finset.Insert.comm]
    · simp [addDirected, ha]
  · funext a
    by_cases hax : a = x <;> by_cases hau : a = u
    · exact absurd (hax ▸ hau) hxu
    · subst hax
      simp [addDirected, hxu, hau]
    · subst hau
      simp [addDirected, Ne.symm hxu, hax]
    · simp [addDirected, hax, hau]

theorem applyDirected_addDirected (g : Graph) (l : List (String × String))
    (x y : String) :
    applyDirected (addDirected g x y) l = addDirected (applyDirected g l) x y := by
  induction l generalizing g with
  | nil => rfl
  | cons p l ih =>
    unfold applyDirected at ih ⊢
    rw [List.foldl_cons, List.foldl_cons, addDirected_comm, ih]

theorem applyDirected_comm (g : Graph) (l₁ l₂ : List (String × String)) :
    applyDirected (applyDirected g l₁) l₂ = applyDirected (applyDirected g l₂) l₁ := by
  induction l₁ generalizing g with
  | nil => rfl
  | cons p l₁ ih =>
    show applyDirected (applyDirected (addDirected g p.1 p.2) l₁) l₂ = _
    rw [ih, applyDirected_addDirected]
    rfl

theorem foldl_addEdgePair_eq (a : String) (rest : List String) (g : Graph) :
    rest.foldl (fun acc r => addEdgePair acc a r) g =
      applyDirected g (rest.flatMap (fun r => [(a, r), (r, a)])) := by
  induction rest generalizing g with
  | nil => rfl
  | cons r rs ih =>
    rw [List.foldl_cons, ih]
    rfl

theorem processTransaction_eq_applyDirected (g : Graph) (t : Json) :
    processTransaction g t = applyDirected g (txSteps t) := by
  unfold processTransaction txSteps
  rcases h : accountsOf t with _ | (_ | ⟨a, rest⟩)
  · rfl
  · rfl
  · exact foldl_addEdgePair_eq a rest g

theorem processTransaction_comm (g : Graph) (t₁ t₂ : Json) :
    processTransaction (processTransaction g t₁) t₂ =
      processTransaction (processTransaction g t₂) t₁ := by
  rw [processTransaction_eq_applyDirected, processTransaction_eq_applyDirected,
    processTransaction_eq_applyDirected g t₂, processTransaction_eq_applyDirected]
  exact applyDirected_comm g (txSteps t₁) (txSteps t₂)

theorem foldl_processTransaction_perm {ts₁ ts₂ : List Json}
    (h : ts₁.Perm ts₂) : ∀ g : Graph,
    ts₁.foldl processTransaction g = ts₂.foldl processTransaction g := by
  induction h with
  | nil => intro g; rfl
  | cons x _ ih =>
    intro g
    rw [List.foldl_cons, List.foldl_cons]
    exact ih _
  | swap x y l =>
    intro g
    rw [List.foldl_cons, List.foldl_cons, List.foldl_cons, List.foldl_cons,
      processTransaction_comm]
  | trans _ _ ih₁ ih₂ =>
    intro g
    rw [ih₁ g, ih₂ g]

/-- C8: the built graph does not depend on the order of the transaction
records: permuted inputs produce the same mapping from addresses to
neighbor sets. -/
theorem build_transaction_graph_perm_invariant (ts₁ ts₂ : List Json)
    (h : ts₁.Perm ts₂) :
    build_transaction_graph ts₁ = build_transaction_graph ts₂ :=
  foldl_processTransaction_perm h Graph.empty

/-- Witness for C8 at a concrete pair of permuted inputs. -/
theorem build_transaction_graph_perm_invariant_witness :
    ([txRecord ["A", "B"], txRecord ["B", "C"]]).Perm
        [txRecord ["B", "C"], txRecord ["A", "B"]] ∧
      build_transaction_graph [txRecord ["A", "B"], txRecord ["B", "C"]] =
        build_transaction_graph [txRecord ["B", "C"], txRecord ["A", "B"]] :=
  ⟨List.Perm.swap _ _ _,
    build_transaction_graph_perm_invariant _ _ (List.Perm.swap _ _ _)⟩

/-! Failure semantics of the graph builder. -/

theorem processTransaction_skip (g : Graph) (t : Json)
    (h : ((accountsOf t).getD []).length ≤ 1) : processTransaction g t = g := by
  unfold processTransaction
  rcases ha : accountsOf t with _ | (_ | ⟨a, rest⟩)
  · rfl
  · rfl
  · rw [ha] at h
    cases rest with
    | nil => rfl
    | cons b rs => simp at h

theorem foldl_processTransaction_skip (ts : List Json) (g : Graph)
    (h : ∀ t ∈ ts, ((accountsOf t).getD []).length ≤ 1) :
    ts.foldl processTransaction g = g := by
  induction ts generalizing g with
  | nil => rfl
  | cons t ts ih =>
    rw [List.foldl_cons, processTransaction_skip g t (h t (List.mem_cons_self t ts))]
    exact ih g (fun t' ht' => h t' (List.mem_cons_of_mem t ht'))

/-- C9: the graph builder is a total function and a malformed record (one
whose transaction/message/accountKeys structure is missing, so that account
extraction yields none) leaves the graph unchanged; more generally any
record with fewer than two extracted accounts contributes nothing, and when
every record is of that kind the result is the empty graph. -/
theorem build_transaction_graph_never_fails :
    (∀ (g : Graph) (t : Json), accountsOf t = none → processTransaction g t = g) ∧
    (∀ ts : List Json, (∀ t ∈ ts, ((accountsOf t).getD []).length ≤ 1) →
      build_transaction_graph ts = Graph.empty) := by
  constructor
  · intro g t h
    exact processTransaction_skip g t (by simp [h])
  · intro ts h
    exact foldl_processTransaction_skip ts Graph.empty h

/-- Witness for C9: a record with no transaction field and a record with a
single account key are both skipped, and together build the empty graph. -/
theorem build_transaction_graph_never_fails_witness :
    (accountsOf Json.null = none ∧
      processTransaction Graph.empty Json.null = Graph.empty) ∧
    ((∀ t ∈ [Json.null, txRecord ["A"]], ((accountsOf t).getD []).length ≤ 1) ∧
      build_transaction_graph [Json.null, txRecord ["A"]] = Graph.empty) :=
  ⟨⟨rfl, build_transaction_graph_never_fails.1 Graph.empty Json.null rfl⟩,
    ⟨by decide, build_transaction_graph_never_fails.2 _ (by decide)⟩⟩

/-! Basic facts about the adjacency input. -/

theorem AdjList.get_eq_none (g : AdjList) (a : String)
    (h : a ∉ AdjList.keys g) : AdjList.get g a = none := by
  unfold AdjList.get
  rw [List.find?_eq_none.mpr]
  · rfl
  · intro p hp
    simp only [beq_iff_eq]
    intro hpa
    refine h ?_
    simp only [AdjList.keys, List.mem_toFinset, List.mem_map]
    exact ⟨p, hp, hpa⟩

theorem AdjList.get_subset_allNbrs (g : AdjList) (a : String)
    (nbrs : List String) (h : AdjList.get g a = some nbrs) :
    ∀ n ∈ nbrs, n ∈ AdjList.allNbrs g := by
  intro n hn
  unfold AdjList.get at h
  cases hf : g.find? (fun p => p.1 == a) with
  | none => rw [hf] at h; exact absurd h (by simp)
  | some pr =>
    rw [hf] at h
    have hpr : pr ∈ g := List.mem_of_find?_eq_some hf
    have h2 : pr.2 = nbrs := by simpa using h
    simp only [AdjList.allNbrs, List.mem_toFinset, List.mem_flatten]
    exact ⟨nbrs, by rw [← h2]; exact List.mem_map_of_mem _ hpr, hn⟩

/-! Self-match behavior of find_paths. -/

theorem find_paths_self_eq (g : AdjList) (A : String) (k : Nat) (hk : 1 ≤ k) :
    find_paths g A A k = [[A]] := by
  unfold find_paths fuelBound
  rw [findPathsAux]
  rw [if_neg (by simpa using Nat.not_lt.mpr hk), if_pos rfl, findPathsAux]
  rfl

theorem find_paths_self_zero (g : AdjList) (A : String) :
    find_paths g A A 0 = [] := by
  unfold find_paths fuelBound
  rw [findPathsAux]
  rw [if_pos (by simp), findPathsAux]
  rfl

/-- C6: for any graph and any bound k of at least one node, searching from
an address to itself returns exactly the single-node path, regardless of
the graph. -/
theorem find_paths_self_match (g : AdjList) (A : String) (k : Nat)
    (hk : 1 ≤ k) : find_paths g A A k = [[A]] :=
  find_paths_self_eq g A k hk

/-- Witness for C6 at a concrete graph and depth. -/
theorem find_paths_self_match_witness :
    1 ≤ 2 ∧ find_paths [("X", ["Y"]), ("Y", ["X"])] "X" "X" 2 = [["X"]] :=
  ⟨by decide, find_paths_self_match [("X", ["Y"]), ("Y", ["X"])] "X" 2 (by decide)⟩

/-! Depth bound of find_paths. -/

theorem findPathsAux_depth_bound (g : AdjList) (e : String) (d : Nat) :
    ∀ (fuel : Nat) (queue : List (String × List String))
      (visited : Finset String) (paths : List (List String)),
      (∀ p ∈ paths, p.length ≤ d) →
      ∀ p ∈ (findPathsAux g e d fuel queue visited paths).getD [],
        p.length ≤ d := by
  intro fuel
  induction fuel with
  | zero =>
    intro queue visited paths h p hp
    cases queue with
    | nil =>
      rw [findPathsAux] at hp
      exact h p hp
    | cons q rest =>
      obtain ⟨node, path⟩ := q
      rw [findPathsAux] at hp
      exact absurd hp (by simp)
  | succ fuel ih =>
    intro queue visited paths h p hp
    cases queue with
    | nil =>
      rw [findPathsAux] at hp
      exact h p hp
    | cons q rest =>
      obtain ⟨node, path⟩ := q
      rw [findPathsAux] at hp
      by_cases hd : path.length > d
      · rw [if_pos hd] at hp
        exact ih rest visited paths h p hp
      · rw [if_neg hd] at hp
        by_cases he : node = e
        · rw [if_pos he] at hp
          refine ih rest visited (paths ++ [path]) ?_ p hp
          intro p2 hp2
          rcases List.mem_append.mp hp2 with h1 | h1
          · exact h p2 h1
          · rw [List.mem_singleton.mp h1]
            exact Nat.le_of_not_lt hd
        · rw [if_neg he] at hp
          cases hg : AdjList.get g node with
          | none =>
            rw [hg] at hp
            exact ih rest visited paths h p hp
          | some nbrs =>
            rw [hg] at hp
            exact ih _ _ paths h p hp

/-- C7: every path returned by find_paths has node count at most maxDepth;
a dequeued branch whose path exceeds the bound is dropped without output. -/
theorem find_paths_depth_bound (g : AdjList) (s e : String) (d : Nat)
    (p : List String) (hp : p ∈ find_paths g s e d) : p.length ≤ d := by
  unfold find_paths at hp
  exact findPathsAux_depth_bound g e d (fuelBound g) [(s, [s])] ∅ []
    (by simp) p hp

/-- Witness for C7 at a concrete graph, endpoints and depth. -/
theorem find_paths_depth_bound_witness :
    (["A"] ∈ find_paths [] "A" "A" 1) ∧ (["A"] : List String).length ≤ 1 :=
  ⟨by decide, find_paths_depth_bound [] "A" "A" 1 ["A"] (by decide)⟩

/-! Single-path guarantee of find_paths. -/

theorem expandNeighbors_count (e : String) (path : List String) :
    ∀ (ns : List String) (queue : List (String × List String))
      (visited : Finset String),
      (expandNeighbors path ns queue visited).1.countP (fun q => q.1 == e) +
          (if e ∈ (expandNeighbors path ns queue visited).2 then 0 else 1) ≤
        queue.countP (fun q => q.1 == e) + (if e ∈ visited then 0 else 1) := by
  intro ns
  induction ns with
  | nil =>
    intro queue visited
    exact le_refl _
  | cons n ns ih =>
    intro queue visited
    rw [expandNeighbors]
    by_cases hn : n ∈ visited
    · rw [if_pos hn]
      exact ih queue visited
    · rw [if_neg hn]
      refine le_trans (ih _ _) ?_
      by_cases hne : n = e
      · subst hne
        rw [List.countP_append, if_pos (Finset.mem_insert_self n visited),
          if_neg hn]
        simp [List.countP_cons]
      · have hiff : e ∈ insert n visited ↔ e ∈ visited := by
          rw [Finset.mem_insert]
          simp [Ne.symm hne]
        have h2 : List.countP (fun q => q.1 == e) [(n, path ++ [n])] = 0 := by
          simp [List.countP_cons, hne]
        rw [List.countP_append, if_congr hiff rfl rfl, h2]
        simp

theorem findPathsAux_single (g : AdjList) (e : String) (d : Nat) :
    ∀ (fuel : Nat) (queue : List (String × List String))
      (visited : Finset String) (paths : List (List String)),
      paths.length + queue.countP (fun q => q.1 == e) +
          (if e ∈ visited then 0 else 1) ≤ 1 →
      ((findPathsAux g e d fuel queue visited paths).getD []).length ≤ 1 := by
  intro fuel
  induction fuel with
  | zero =>
    intro queue visited paths h
    cases queue with
    | nil =>
      rw [findPathsAux]
      exact le_trans (le_trans (Nat.le_add_right _ _) (Nat.le_add_right _ _)) h
    | cons q rest =>
      obtain ⟨node, path⟩ := q
      rw [findPathsAux]
      simp
  | succ fuel ih =>
    intro queue visited paths h
    cases queue with
    | nil =>
      rw [findPathsAux]
      exact le_trans (le_trans (Nat.le_add_right _ _) (Nat.le_add_right _ _)) h
    | cons q rest =>
      obtain ⟨node, path⟩ := q
      rw [findPathsAux]
      rw [List.countP_cons] at h
      by_cases hd : path.length > d
      · rw [if_pos hd]
        refine ih rest visited paths ?_
        split_ifs at h ⊢ <;> omega
      · rw [if_neg hd]
        by_cases he : node = e
        · rw [if_pos he]
          refine ih rest visited (paths ++ [path]) ?_
          subst he
          simp only [beq_self_eq_true, if_true] at h
          rw [List.length_append]
          simp only [List.length_singleton]
          split_ifs at h ⊢ <;> omega
        · rw [if_neg he]
          cases hg : AdjList.get g node with
          | none =>
            refine ih rest visited paths ?_
            split_ifs at h ⊢ <;> omega
          | some nbrs =>
            refine ih _ _ paths ?_
            have hc := expandNeighbors_count e path nbrs rest visited
            split_ifs at hc h ⊢ <;> omega

/-- C3: find_paths returns at most one path, for every graph, start, end
and depth bound: the end address is enqueued at most once, so at most one
path to it is ever emitted. -/
theorem find_paths_at_most_one_path (g : AdjList) (s e : String) (d : Nat) :
    (find_paths g s e d).length ≤ 1 := by
  by_cases hse : s = e
  · subst hse
    cases d with
    | zero =>
      rw [find_paths_self_zero]
      simp
    | succ d =>
      rw [find_paths_self_eq g s (d + 1) (Nat.succ_le_succ (Nat.zero_le d))]
      simp
  · unfold find_paths
    refine findPathsAux_single g e d (fuelBound g) [(s, [s])] ∅ [] ?_
    have hb : ((s == e) : Bool) = false := beq_eq_false_iff_ne.mpr hse
    simp [List.countP_cons, hb]

/-! Behavior of find_paths on endpoints absent from the graph. -/

theorem expandNeighbors_queue_mem (path : List String) :
    ∀ (ns : List String) (queue : List (String × List String))
      (visited : Finset String),
      ∀ q ∈ (expandNeighbors path ns queue visited).1, q ∈ queue ∨ q.1 ∈ ns := by
  intro ns
  induction ns with
  | nil =>
    intro queue visited q hq
    exact Or.inl hq
  | cons n ns ih =>
    intro queue visited q hq
    rw [expandNeighbors] at hq
    by_cases hn : n ∈ visited
    · rw [if_pos hn] at hq
      rcases ih queue visited q hq with h | h
      · exact Or.inl h
      · exact Or.inr (List.mem_cons_of_mem _ h)
    · rw [if_neg hn] at hq
      rcases ih _ _ q hq with h | h
      · rcases List.mem_append.mp h with h2 | h2
        · exact Or.inl h2
        · right
          rw [List.mem_singleton.mp h2]
          exact List.mem_cons_self _ _
      · exact Or.inr (List.mem_cons_of_mem _ h)

theorem findPathsAux_no_end (g : AdjList) (e : String) (d : Nat)
    (he : e ∉ AdjList.allNbrs g) :
    ∀ (fuel : Nat) (queue : List (String × List String))
      (visited : Finset String) (paths : List (List String)),
      (∀ q ∈ queue, q.1 ≠ e) →
      findPathsAux g e d fuel queue visited paths = none ∨
        findPathsAux g e d fuel queue visited paths = some paths := by
  intro fuel
  induction fuel with
  | zero =>
    intro queue visited paths hq
    cases queue with
    | nil =>
      right
      rw [findPathsAux]
    | cons q rest =>
      left
      obtain ⟨node, path⟩ := q
      rw [findPathsAux]
  | succ fuel ih =>
    intro queue visited paths hq
    cases queue with
    | nil =>
      right
      rw [findPathsAux]
    | cons q rest =>
      obtain ⟨node, path⟩ := q
      rw [findPathsAux]
      have hnode : node ≠ e := hq (node, path) (List.mem_cons_self _ _)
      by_cases hd : path.length > d
      · rw [if_pos hd]
        exact ih rest visited paths (fun q2 hq2 => hq q2 (List.mem_cons_of_mem _ hq2))
      · rw [if_neg hd, if_neg hnode]
        cases hg : AdjList.get g node with
        | none =>
          exact ih rest visited paths (fun q2 hq2 => hq q2 (List.mem_cons_of_mem _ hq2))
        | some nbrs =>
          refine ih _ _ paths ?_
          intro q2 hq2
          rcases expandNeighbors_queue_mem path nbrs rest visited q2 hq2 with h1 | h1
          · exact hq q2 (List.mem_cons_of_mem _ h1)
          · intro hcontra
            exact he (hcontra ▸ AdjList.get_subset_allNbrs g node nbrs hg q2.1 h1)

/-- Counterexample to C2 as stated: in the empty graph the address A is
absent from the key set (and from every neighbor list), yet searching from
A to A returns the single-node path instead of the empty sequence. -/
theorem find_paths_absent_counterexample :
    ("A" ∉ AdjList.keys ([] : AdjList)) ∧
      ("A" ∉ AdjList.allNbrs ([] : AdjList)) ∧
      find_paths ([] : AdjList) "A" "A" 1 = [["A"]] :=
  ⟨by decide, by decide, by decide⟩

/-- C2 amended: when start differs from end, a start absent from the key
set, or an end absent from every neighbor list (for symmetric graphs this
includes an end absent from the key set), makes find_paths return the
empty sequence. -/
theorem find_paths_absent_empty (g : AdjList) (s e : String) (d : Nat)
    (hne : s ≠ e) (h : s ∉ AdjList.keys g ∨ e ∉ AdjList.allNbrs g) :
    find_paths g s e d = [] := by
  rcases h with hs | he2
  · unfold find_paths fuelBound
    rw [findPathsAux]
    by_cases hd : ([s] : List String).length > d
    · rw [if_pos hd, findPathsAux]
      rfl
    · rw [if_neg hd, if_neg hne]
      simp only [AdjList.get_eq_none g s hs]
      rw [findPathsAux]
      rfl
  · unfold find_paths
    rcases findPathsAux_no_end g e d he2 (fuelBound g) [(s, [s])] ∅ []
        (by
          intro q hq
          rw [List.mem_singleton.mp hq]
          exact hne) with h1 | h1
    · rw [h1]
      rfl
    · rw [h1]
      rfl

/-- Witness for the amended C2 at a concrete graph whose key set misses the
start address. -/
theorem find_paths_absent_empty_witness :
    ("A" ≠ "B" ∧ "A" ∉ AdjList.keys [("B", ["A"])]) ∧
      find_paths [("B", ["A"])] "A" "B" 5 = [] :=
  ⟨⟨by decide, by decide⟩,
    find_paths_absent_empty [("B", ["A"])] "A" "B" 5 (by decide)
      (Or.inl (by decide))⟩

/-! Enqueue discipline of find_paths: the enqueue log. -/

theorem expandNeighborsTr_inv (s0 : String) (path : List String) :
    ∀ (ns : List String) (queue : List (String × List String))
      (visited : Finset String) (t : List String),
      t.Nodup → (∀ x ∈ t, x ∈ visited) →
      ∃ t2, (expandNeighborsTr path ns queue visited (s0 :: t)).2.2 = s0 :: t2 ∧
        t2.Nodup ∧
        ∀ x ∈ t2, x ∈ (expandNeighborsTr path ns queue visited (s0 :: t)).2.1 := by
  intro ns
  induction ns with
  | nil =>
    intro queue visited t h1 h2
    exact ⟨t, rfl, h1, h2⟩
  | cons n ns ih =>
    intro queue visited t h1 h2
    rw [expandNeighborsTr]
    by_cases hn : n ∈ visited
    · rw [if_pos hn]
      exact ih queue visited t h1 h2
    · rw [if_neg hn]
      have hnt : n ∉ t := fun hmem => hn (h2 n hmem)
      have h1b : (t ++ [n]).Nodup := by
        rw [List.nodup_append]
        refine ⟨h1, List.nodup_singleton n, ?_⟩
        intro a ha hb
        rw [List.mem_singleton.mp hb] at ha
        exact hnt ha
      have h2b : ∀ x ∈ t ++ [n], x ∈ insert n visited := by
        intro x hx
        rcases List.mem_append.mp hx with hx1 | hx1
        · exact Finset.mem_insert_of_mem (h2 x hx1)
        · rw [List.mem_singleton.mp hx1]
          exact Finset.mem_insert_self n visited
      exact ih (queue ++ [(n, path ++ [n])]) (insert n visited) (t ++ [n]) h1b h2b

theorem findPathsAuxTr_nodup (g : AdjList) (e : String) (d : Nat)
    (s0 : String) :
    ∀ (fuel : Nat) (queue : List (String × List String))
      (visited : Finset String) (paths : List (List String)) (t : List String),
      t.Nodup → (∀ x ∈ t, x ∈ visited) →
      ∀ res, findPathsAuxTr g e d fuel queue visited paths (s0 :: t) = some res →
        ∃ t2, res.2 = s0 :: t2 ∧ t2.Nodup := by
  intro fuel
  induction fuel with
  | zero =>
    intro queue visited paths t h1 h2 res hres
    cases queue with
    | nil =>
      rw [findPathsAuxTr] at hres
      obtain rfl : (paths, s0 :: t) = res := by simpa using hres
      exact ⟨t, rfl, h1⟩
    | cons q rest =>
      obtain ⟨node, path⟩ := q
      rw [findPathsAuxTr] at hres
      exact absurd hres (by simp)
  | succ fuel ih =>
    intro queue visited paths t h1 h2 res hres
    cases queue with
    | nil =>
      rw [findPathsAuxTr] at hres
      obtain rfl : (paths, s0 :: t) = res := by simpa using hres
      exact ⟨t, rfl, h1⟩
    | cons q rest =>
      obtain ⟨node, path⟩ := q
      rw [findPathsAuxTr] at hres
      by_cases hd : path.length > d
      · rw [if_pos hd] at hres
        exact ih rest visited paths t h1 h2 res hres
      · rw [if_neg hd] at hres
        by_cases he : node = e
        · rw [if_pos he] at hres
          exact ih rest visited (paths ++ [path]) t h1 h2 res hres
        · rw [if_neg he] at hres
          cases hg : AdjList.get g node with
          | none =>
            rw [hg] at hres
            exact ih rest visited paths t h1 h2 res hres
          | some nbrs =>
            rw [hg] at hres
            obtain ⟨t2, hteq, ht2, hsub⟩ :=
              expandNeighborsTr_inv s0 path nbrs rest visited t h1 h2
            have hres2 : findPathsAuxTr g e d fuel
                (expandNeighborsTr path nbrs rest visited (s0 :: t)).1
                (expandNeighborsTr path nbrs rest visited (s0 :: t)).2.1 paths
                (expandNeighborsTr path nbrs rest visited (s0 :: t)).2.2 =
                  some res := hres
            rw [hteq] at hres2
            exact ih _ _ paths t2 ht2 hsub res hres2

/-- Counterexample to C1 as stated: in the two-node graph A-B, searching
from A for an absent address re-enqueues A (whose initial push never marked
it visited), so the enqueue log contains A twice. -/
theorem find_paths_trace_counterexample :
    find_paths_trace [("A", ["B"]), ("B", ["A"])] "A" "C" 2 = ["A", "B", "A"] ∧
      ¬ (find_paths_trace [("A", ["B"]), ("B", ["A"])] "A" "C" 2).Nodup :=
  ⟨by decide, by decide⟩

/-- C1 amended: the enqueue log is the initial push of start followed by
pairwise distinct loop-enqueued addresses, each marked visited at the
moment of its enqueue; hence every address other than start is enqueued at
most once, and only start can be enqueued a second time, because its
initial push does not mark it visited. -/
theorem find_paths_trace_loop_nodup (g : AdjList) (s e : String) (d : Nat) :
    ∃ t, find_paths_trace g s e d = s :: t ∧ t.Nodup := by
  unfold find_paths_trace
  cases hres : findPathsAuxTr g e d (fuelBound g) [(s, [s])] ∅ [] [s] with
  | none =>
    exact ⟨[], rfl, List.nodup_nil⟩
  | some res =>
    obtain ⟨t2, h1, h2⟩ := findPathsAuxTr_nodup g e d s (fuelBound g)
      [(s, [s])] ∅ [] [] List.nodup_nil (by simp) res hres
    exact ⟨t2, h1, h2⟩

/-! Termination and enqueue bound of find_paths. -/

theorem expandNeighbors_measure (S : Finset String) (path : List String) :
    ∀ (ns : List String) (queue : List (String × List String))
      (visited : Finset String),
      (∀ n ∈ ns, n ∈ S) →
      (expandNeighbors path ns queue visited).1.length +
          (S \ (expandNeighbors path ns queue visited).2).card ≤
        queue.length + (S \ visited).card := by
  intro ns
  induction ns with
  | nil =>
    intro queue visited h
    exact le_refl _
  | cons n ns ih =>
    intro queue visited h
    rw [expandNeighbors]
    by_cases hn : n ∈ visited
    · rw [if_pos hn]
      exact ih queue visited (fun m hm => h m (List.mem_cons_of_mem _ hm))
    · rw [if_neg hn]
      refine le_trans (ih _ _ (fun m hm => h m (List.mem_cons_of_mem _ hm))) ?_
      rw [List.length_append]
      have hmem : n ∈ S \ visited :=
        Finset.mem_sdiff.mpr ⟨h n (List.mem_cons_self _ _), hn⟩
      have hcard : (S \ insert n visited).card = (S \ visited).card - 1 := by
        rw [Finset.sdiff_insert, Finset.card_erase_of_mem hmem]
      have hpos : 0 < (S \ visited).card := Finset.card_pos.mpr ⟨n, hmem⟩
      simp only [List.length_singleton]
      omega

theorem findPathsAux_isSome (g : AdjList) (e : String) (d : Nat) :
    ∀ (fuel : Nat) (queue : List (String × List String))
      (visited : Finset String) (paths : List (List String)),
      queue.length + ((AdjList.allNbrs g) \ visited).card ≤ fuel →
      (findPathsAux g e d fuel queue visited paths).isSome := by
  intro fuel
  induction fuel with
  | zero =>
    intro queue visited paths h
    cases queue with
    | nil =>
      rw [findPathsAux]
      rfl
    | cons q rest =>
      rw [List.length_cons] at h
      exact absurd h (by omega)
  | succ fuel ih =>
    intro queue visited paths h
    cases queue with
    | nil =>
      rw [findPathsAux]
      rfl
    | cons q rest =>
      obtain ⟨node, path⟩ := q
      rw [findPathsAux]
      rw [List.length_cons] at h
      by_cases hd : path.length > d
      · rw [if_pos hd]
        exact ih rest visited paths (by omega)
      · rw [if_neg hd]
        by_cases he : node = e
        · rw [if_pos he]
          exact ih rest visited (paths ++ [path]) (by omega)
        · rw [if_neg he]
          cases hg : AdjList.get g node with
          | none => exact ih rest visited paths (by omega)
          | some nbrs =>
            refine ih _ _ paths ?_
            have hm := expandNeighbors_measure (AdjList.allNbrs g) path nbrs
              rest visited (AdjList.get_subset_allNbrs g node nbrs hg)
            omega

theorem expandNeighborsTr_len (S : Finset String) (path : List String) :
    ∀ (ns : List String) (queue : List (String × List String))
      (visited : Finset String) (tr : List String),
      (∀ n ∈ ns, n ∈ S) → visited ⊆ S → tr.length ≤ 1 + visited.card →
      (expandNeighborsTr path ns queue visited tr).2.1 ⊆ S ∧
        (expandNeighborsTr path ns queue visited tr).2.2.length ≤
          1 + (expandNeighborsTr path ns queue visited tr).2.1.card := by
  intro ns
  induction ns with
  | nil =>
    intro queue visited tr h hs hl
    exact ⟨hs, hl⟩
  | cons n ns ih =>
    intro queue visited tr h hs hl
    rw [expandNeighborsTr]
    by_cases hn : n ∈ visited
    · rw [if_pos hn]
      exact ih queue visited tr (fun m hm => h m (List.mem_cons_of_mem _ hm)) hs hl
    · rw [if_neg hn]
      refine ih _ _ _ (fun m hm => h m (List.mem_cons_of_mem _ hm)) ?_ ?_
      · exact Finset.insert_subset (h n (List.mem_cons_self _ _)) hs
      · rw [List.length_append, Finset.card_insert_of_not_mem hn]
        simp only [List.length_singleton]
        omega

theorem findPathsAuxTr_trace_len (g : AdjList) (e : String) (d : Nat) :
    ∀ (fuel : Nat) (queue : List (String × List String))
      (visited : Finset String) (paths : List (List String)) (tr : List String),
      visited ⊆ AdjList.allNbrs g → tr.length ≤ 1 + visited.card →
      ∀ res, findPathsAuxTr g e d fuel queue visited paths tr = some res →
        res.2.length ≤ 1 + (AdjList.allNbrs g).card := by
  intro fuel
  induction fuel with
  | zero =>
    intro queue visited paths tr hs hl res hres
    cases queue with
    | nil =>
      rw [findPathsAuxTr] at hres
      obtain rfl : (paths, tr) = res := by simpa using hres
      have := Finset.card_le_card hs
      simpa using le_trans hl (by omega)
    | cons q rest =>
      obtain ⟨node, path⟩ := q
      rw [findPathsAuxTr] at hres
      exact absurd hres (by simp)
  | succ fuel ih =>
    intro queue visited paths tr hs hl res hres
    cases queue with
    | nil =>
      rw [findPathsAuxTr] at hres
      obtain rfl : (paths, tr) = res := by simpa using hres
      have := Finset.card_le_card hs
      simpa using le_trans hl (by omega)
    | cons q rest =>
      obtain ⟨node, path⟩ := q
      rw [findPathsAuxTr] at hres
      by_cases hd : path.length > d
      · rw [if_pos hd] at hres
        exact ih rest visited paths tr hs hl res hres
      · rw [if_neg hd] at hres
        by_cases he : node = e
        · rw [if_pos he] at hres
          exact ih rest visited (paths ++ [path]) tr hs hl res hres
        · rw [if_neg he] at hres
          cases hg : AdjList.get g node with
          | none =>
            rw [hg] at hres
            exact ih rest visited paths tr hs hl res hres
          | some nbrs =>
            rw [hg] at hres
            obtain ⟨hsub, hlen⟩ := expandNeighborsTr_len (AdjList.allNbrs g)
              path nbrs rest visited tr
              (AdjList.get_subset_allNbrs g node nbrs hg) hs hl
            exact ih _ _ paths _ hsub hlen res hres

/-- C10: the dequeue loop of find_paths ends on every finite graph:
fuelBound loop iterations always suffice (the loop result is some rather
than fuel exhaustion), because the number of enqueue operations - the
length of the enqueue log - is bounded by one plus the number of distinct
addresses occurring in neighbor lists: every enqueue after the initial one
inserts a fresh such address into the visited set. -/
theorem find_paths_terminates_enqueue_bound (g : AdjList) (s e : String)
    (d : Nat) :
    (findPathsAux g e d (fuelBound g) [(s, [s])] ∅ []).isSome ∧
      (find_paths_trace g s e d).length ≤ 1 + (AdjList.allNbrs g).card := by
  constructor
  · refine findPathsAux_isSome g e d (fuelBound g) [(s, [s])] ∅ [] ?_
    simp only [List.length_singleton, Finset.sdiff_empty, fuelBound]
    omega
  · unfold find_paths_trace
    cases hres : findPathsAuxTr g e d (fuelBound g) [(s, [s])] ∅ [] [s] with
    | none =>
      simp
    | some res =>
      exact findPathsAuxTr_trace_len g e d (fuelBound g) [(s, [s])] ∅ [] [s]
        (Finset.empty_subset _) (by simp) res hres
